import Mathlib

/-!
Verification development for the screen-stream repository.

Shallow embedding of the core protocol code:
* `src/packet.rs`       — `Packet`, the wire codec (`to_bytes` / `from_bytes`),
  the constants `CHUNK_SIZE` and `META_SIZE`, and packet equality.
* `src/frame_buffer.rs` — `FrameBuffer` (reassembly cache), `add_packet`,
  `get_frame`, eviction.
* `src/server.rs`       — control-byte handling on the registry and the
  chunking of a compressed frame into packets.

Machine integers are modelled as `Nat` (u8 / u32 values are naturals; `% 256`
and bounds hypotheses appear exactly where the Rust types force wrap or
bounds).  Fallible code paths (Rust `panic!`-free `unwrap`s, `Vec::remove`
out of bounds, slice indexing) are modelled with `Option`: `none` means the
Rust code would panic at that point.  Rust's `HashMap<u32, Vec<Packet>>` is
modelled as an association list with (reachably invariant) distinct keys, so
`len`, `get`, `insert`, `remove` agree with the hash map's semantics.
-/

namespace ScreenStream

/-- Wire payload byte: a `u8` value, modelled as `Nat`. -/
abbrev Byte := Nat

/-- Packet, from `src/packet.rs`: `index: u8`, `frame_id: u32`, `data: Vec<u8>`. -/
structure Packet where
  index : Nat
  frame_id : Nat
  data : List Byte
  deriving DecidableEq, Repr

namespace Packet

/-- `Packet::META_SIZE = 5` (1 byte index + 4 bytes little-endian frame id). -/
def META_SIZE : Nat := 5

/-- `Packet::CHUNK_SIZE = 65000` (maximum datagram size used by the sender). -/
def CHUNK_SIZE : Nat := 65000

/-- `impl PartialEq for Packet`: equality compares `index` and `frame_id` only
(payload is ignored). -/
def pktEq (a b : Packet) : Bool :=
  a.index == b.index && a.frame_id == b.frame_id

/-- Little-endian byte decomposition of a `u32` value, as copied out by
`u32::to_le_bytes` in `Packet::to_bytes`. -/
def u32ToLeBytes (n : Nat) : List Byte :=
  [n % 256, n / 256 % 256, n / 65536 % 256, n / 16777216 % 256]

/-- Recomposition performed by `u32::from_le_bytes` in `Packet::from_bytes`. -/
def u32FromLeBytes (b0 b1 b2 b3 : Byte) : Nat :=
  b0 + 256 * b1 + 65536 * b2 + 16777216 * b3

/-- `Packet::to_bytes`: `[index] ++ frame_id.to_le_bytes() ++ data`.  The
`index` field is a `u8` in the source, so it occupies the single leading
byte. -/
def to_bytes (p : Packet) : List Byte :=
  p.index :: (u32ToLeBytes p.frame_id ++ p.data)

/-- `Packet::from_bytes`: reads `bytes[0]`, `bytes[1..=4]` (little-endian
`u32`) and `bytes[5..]`.  The Rust code panics (slice index out of range) when
fewer than `META_SIZE` bytes are supplied; that is the `none` case. -/
def from_bytes (b : List Byte) : Option Packet :=
  match b with
  | b0 :: b1 :: b2 :: b3 :: b4 :: rest =>
      some ⟨b0, u32FromLeBytes b1 b2 b3 b4, rest⟩
  | _ => none

end Packet

/-- C8: for every Packet with in-range fields, decoding the encoding
yields the packet back, and the encoding is exactly `META_SIZE` + payload
bytes laid out as index (offset 0), little-endian frame id (offsets 1..4),
payload (offset 5 on).  The conclusion is full structural equality, which is
stronger than the claim's `frame_id`/`index` equality. -/
theorem packet_roundtrip (p : Packet)
    (hidx : p.index < 256)
    (hfid : p.frame_id < 4294967296)
    (hlen : p.data.length ≤ Packet.CHUNK_SIZE - Packet.META_SIZE) :
    Packet.from_bytes (Packet.to_bytes p) = some p ∧
      (Packet.to_bytes p).length = Packet.META_SIZE + p.data.length := by
  constructor
  · cases p with
    | mk i f d =>
      show Packet.from_bytes
        (i :: ([f % 256, f / 256 % 256, f / 65536 % 256, f / 16777216 % 256] ++ d)) =
          some ⟨i, f, d⟩
      simp only [List.cons_append, List.nil_append, Packet.from_bytes,
        Packet.u32FromLeBytes, Option.some.injEq, Packet.mk.injEq]
      refine ⟨trivial, ?_, trivial⟩
      have h1 : f / 65536 = f / 256 / 256 := by
        rw [Nat.div_div_eq_div_mul]
      have h2 : f / 16777216 = f / 256 / 256 / 256 := by
        rw [Nat.div_div_eq_div_mul, Nat.div_div_eq_div_mul]
      rw [h1, h2]
      have hf : f < 4294967296 := hfid
      omega
  · simp only [Packet.to_bytes, Packet.u32ToLeBytes, Packet.META_SIZE,
      List.length_cons, List.length_append]
    simp
    omega

/-- Witness for `packet_roundtrip` at a concrete in-range packet. -/
theorem packet_roundtrip_witness :
    Packet.from_bytes (Packet.to_bytes ⟨3, 5, [7]⟩) = some ⟨3, 5, [7]⟩ ∧
      (Packet.to_bytes ⟨3, 5, [7]⟩).length = Packet.META_SIZE + (1 : Nat) :=
  packet_roundtrip ⟨3, 5, [7]⟩ (by decide) (by decide) (by decide)

/-! ### The reassembly cache, from `src/frame_buffer.rs`

`HashMap<u32, Vec<Packet>>` is modelled as an association list
`List (Nat × List Packet)`; reachable states keep the keys distinct, so
`length` / `find?` / insert / remove below coincide with the hash map's
`len` / `get` / `insert` / `remove`. -/

/-- Association-list lookup, modelling `HashMap::get`. -/
def mapGet (m : List (Nat × List Packet)) (k : Nat) : Option (List Packet) :=
  (m.find? (fun kv => kv.1 == k)).map (fun kv => kv.2)

/-- Modelling `HashMap::contains_key`. -/
def containsKey (m : List (Nat × List Packet)) (k : Nat) : Bool :=
  (mapGet m k).isSome

/-- Modelling `HashMap::insert`: replace the entry if the key is present,
otherwise append a new entry. -/
def mapInsert (m : List (Nat × List Packet)) (k : Nat) (v : List Packet) :
    List (Nat × List Packet) :=
  if containsKey m k then
    m.map (fun kv => if kv.1 == k then (k, v) else kv)
  else
    m ++ [(k, v)]

/-- Modelling `HashMap::remove` (drops every entry with the key; exactly one
under the distinct-keys invariant of reachable states). -/
def mapRemove (m : List (Nat × List Packet)) (k : Nat) :
    List (Nat × List Packet) :=
  m.filter (fun kv => kv.1 != k)

/-- `struct FrameBuffer { frames: HashMap<u32, Vec<Packet>>, order: Vec<u32> }`. -/
structure FrameBuffer where
  frames : List (Nat × List Packet)
  order : List Nat
  deriving DecidableEq, Repr

/-- `enum GetFrameResult { NoFrame, NonSequential(Vec<Packet>), Ok(Vec<u8>) }`. -/
inductive GetFrameResult where
  | NoFrame
  | NonSequential (packets : List Packet)
  | Ok (buffer : List Byte)
  deriving DecidableEq, Repr

namespace FrameBuffer

/-- `FrameBuffer::MAX_FRAMES = 3`. -/
def MAX_FRAMES : Nat := 3

/-- `FrameBuffer::new()`. -/
def new : FrameBuffer := ⟨[], []⟩

/-- Modelling `Vec::insert(index, packet)` (`l.take i ++ p :: l.drop i`). -/
def vecInsert (i : Nat) (p : Packet) (l : List Packet) : List Packet :=
  l.take i ++ p :: l.drop i

/-- The insertion position computed in `add_packet_to_frame`:
`frame.iter().position(|q| q.index > packet.index).unwrap_or(frame.len())`.
`List.findIdx` returns the length when no element matches, which is exactly
`position(..).unwrap_or(len)`. -/
def insertPos (frame : List Packet) (p : Packet) : Nat :=
  frame.findIdx (fun q => p.index < q.index)

/-- `FrameBuffer::add_packet_to_frame`.  The `frames.get_mut(..).unwrap()`
panics when the key is absent: that is the `none` result.  Duplicate packets
(per `Packet`'s `PartialEq`: same `index` and `frame_id`) are not inserted. -/
def add_packet_to_frame (fb : FrameBuffer) (p : Packet) : Option FrameBuffer :=
  match mapGet fb.frames p.frame_id with
  | none => none
  | some frame =>
      if frame.any (fun q => Packet.pktEq q p) then
        some fb
      else
        some { fb with
          frames := mapInsert fb.frames p.frame_id (vecInsert (insertPos frame p) p frame) }

/-- `FrameBuffer::create_frame`: evict the oldest frame (`order.remove(0)`,
then `frames.remove`) when at capacity, then insert an empty frame and push
its id.  `Vec::remove(0)` on an empty `order` panics: the `none` result. -/
def create_frame (fb : FrameBuffer) (fid : Nat) : Option FrameBuffer :=
  if fb.frames.length ≥ MAX_FRAMES then
    match fb.order with
    | [] => none
    | oldest :: rest =>
        some { frames := mapInsert (mapRemove fb.frames oldest) fid [],
               order := rest ++ [fid] }
  else
    some { frames := mapInsert fb.frames fid [],
           order := fb.order ++ [fid] }

/-- `FrameBuffer::add_packet`: create the frame when its id is absent, then
insert the packet into it. -/
def add_packet (fb : FrameBuffer) (p : Packet) : Option FrameBuffer :=
  if containsKey fb.frames p.frame_id then
    add_packet_to_frame fb p
  else
    match create_frame fb p.frame_id with
    | none => none
    | some fb1 => add_packet_to_frame fb1 p

/-- Outcome of the scanning loop inside `get_frame`. -/
inductive ScanOut where
  | panicIndex   -- `self.order[frame_id]` out of bounds
  | panicEmpty   -- `frame.last().unwrap()` on an empty frame
  | noFrame      -- `return GetFrameResult::NoFrame` from inside the loop
  | found (i : Nat)  -- `break` with `frame_id = i`
  deriving DecidableEq, Repr

/-- The `loop` of `FrameBuffer::get_frame`, scanning `order` from position
`i`.  `gas` counts the remaining iterations before the `frame_id >=
MAX_FRAMES` exit: the loop is entered with `i = 0` and
`gas = MAX_FRAMES - 1`, keeping `gas = MAX_FRAMES - 1 - i`, so `gas = 0`
exactly when `frame_id + 1 >= MAX_FRAMES` in the source. -/
def scanFrom (fb : FrameBuffer) : Nat → Nat → ScanOut
  | i, gas =>
    if h : i < fb.order.length then
      match mapGet fb.frames fb.order[i] with
      | none => .noFrame
      | some frame =>
          match frame.getLast? with
          | none => .panicEmpty
          | some p =>
              if p.data.length < Packet.CHUNK_SIZE then .found i
              else
                match gas with
                | 0 => .noFrame
                | gas' + 1 => scanFrom fb (i + 1) gas'
    else .panicIndex

/-- `FrameBuffer::get_frame`.  After the scan breaks at `frame_id = i`, the
source re-reads `self.order[frame_id]` and `self.frames.get(..).unwrap()`
on the unchanged state; their panic branches are the `none` cases (both are
unreachable when the scan returned `found`).  A sequentiality failure
returns the packet list and leaves the state unchanged; success concatenates
the payloads in list order and removes the frame id from `frames`
(`order` is left untouched by the source). -/
def get_frame (fb : FrameBuffer) : Option (GetFrameResult × FrameBuffer) :=
  if fb.frames.length == 0 then some (.NoFrame, fb)
  else
    match scanFrom fb 0 (MAX_FRAMES - 1) with
    | .panicIndex => none
    | .panicEmpty => none
    | .noFrame => some (.NoFrame, fb)
    | .found i =>
        match fb.order.get? i with
        | none => none
        | some fid =>
            match mapGet fb.frames fid with
            | none => none
            | some packets =>
                if packets.enum.any (fun ip => ip.2.index != ip.1) then
                  some (.NonSequential packets, fb)
                else
                  some (.Ok (packets.foldl (fun b p => b ++ p.data) []),
                        { fb with frames := mapRemove fb.frames fid })

end FrameBuffer

/-- One cache operation: a public call on the `FrameBuffer`. -/
inductive FBOp where
  | add (p : Packet)
  | get
  deriving Repr

/-- Run one operation; `none` propagates a Rust panic. -/
def runOp (s : FrameBuffer) : FBOp → Option FrameBuffer
  | .add p => s.add_packet p
  | .get => (s.get_frame).map (fun rs => rs.2)

/-- Run a list of operations from a state. -/
def runOps (s : FrameBuffer) : List FBOp → Option FrameBuffer
  | [] => some s
  | op :: ops =>
      match runOp s op with
      | none => none
      | some s' => runOps s' ops

/-- States of the cache reachable from `FrameBuffer::new()` by (panic-free)
`add_packet` / `get_frame` calls. -/
inductive Reachable : FrameBuffer → Prop where
  | new : Reachable FrameBuffer.new
  | add {s s' : FrameBuffer} {p : Packet} :
      Reachable s → s.add_packet p = some s' → Reachable s'
  | get {s s' : FrameBuffer} {r : GetFrameResult} :
      Reachable s → s.get_frame = some (r, s') → Reachable s'

/-! ### Sender-side code, from `src/server.rs` -/

/-- Control-byte handling in `Capture::on_frame_arrived` (`src/server.rs`
lines 89–113): the 1-byte datagram is matched directly — `0` does nothing,
`1` pushes the sender address, `2` retains every address different from the
sender, anything else only logs.  Addresses are modelled as `Nat`. -/
def serverControl (clients : List Nat) (byte : Byte) (addr : Nat) : List Nat :=
  match byte with
  | 0 => clients
  | 1 => clients ++ [addr]
  | 2 => clients.filter (fun x => x != addr)
  | _ => clients

/-- Rust's `slice::chunks(n)`: consecutive sub-slices of length `n`, the last
one possibly shorter but never empty; an empty slice yields no chunks.
`chunks(0)` panics in Rust and is never invoked by the source (the chunk size
used is `CHUNK_SIZE - META_SIZE`); it is mapped to `[]` here. -/
def rustChunks : Nat → List Byte → List (List Byte)
  | _, [] => []
  | 0, _ :: _ => []
  | n + 1, a :: t => ((a :: t).take (n + 1)) :: rustChunks (n + 1) ((a :: t).drop (n + 1))
  termination_by _n l => l.length
  decreasing_by simp; omega

/-- The per-client packetisation loop of `Capture::on_frame_arrived`
(`src/server.rs` lines 150–156): enumerate the chunks of the compressed
buffer and wrap each as a `Packet` whose index is `i as u8`, i.e. the
enumeration position truncated modulo 256. -/
def sender_packets (fid : Nat) (bytes : List Byte) : List Packet :=
  (rustChunks (Packet.CHUNK_SIZE - Packet.META_SIZE) bytes).enum.map
    (fun ic => Packet.mk (ic.1 % 256) fid ic.2)

/-! ### Helper lemmas -/

theorem mapGet_cons (kv : Nat × List Packet) (m : List (Nat × List Packet)) (k : Nat) :
    mapGet (kv :: m) k = if kv.1 = k then some kv.2 else mapGet m k := by
  by_cases h : kv.1 = k <;> simp [mapGet, List.find?_cons, h]

theorem mapGet_eq_some_mem {m : List (Nat × List Packet)} {k : Nat} {f : List Packet}
    (h : mapGet m k = some f) : (k, f) ∈ m := by
  induction m with
  | nil => cases h
  | cons kv t ih =>
      rw [mapGet_cons] at h
      by_cases hk : kv.1 = k
      · rw [if_pos hk] at h
        have hkv : kv = (k, f) := by
          rcases kv with ⟨k0, f0⟩
          simp only at hk
          simp only [Option.some.injEq] at h
          rw [hk, h]
        rw [← hkv]
        exact List.mem_cons_self _ _
      · rw [if_neg hk] at h
        exact List.mem_cons_of_mem _ (ih h)

theorem mapGet_eq_none_not_mem {m : List (Nat × List Packet)} {k : Nat}
    (h : mapGet m k = none) : ∀ kv ∈ m, kv.1 ≠ k := by
  induction m with
  | nil => intro kv hkv; cases hkv
  | cons kv0 t ih =>
      rw [mapGet_cons] at h
      by_cases hk : kv0.1 = k
      · rw [if_pos hk] at h; cases h
      · rw [if_neg hk] at h
        intro kv hkv
        rcases List.mem_cons.mp hkv with rfl | hkv
        · exact hk
        · exact ih h kv hkv

theorem mem_mapGet_eq_some {m : List (Nat × List Packet)} {k : Nat} {f : List Packet}
    (h : mapGet m k = some f) : ∃ kv ∈ m, kv.1 = k ∧ kv.2 = f :=
  ⟨(k, f), mapGet_eq_some_mem h, rfl, rfl⟩

theorem containsKey_iff {m : List (Nat × List Packet)} {k : Nat} :
    containsKey m k = true ↔ ∃ f, mapGet m k = some f := by
  unfold containsKey
  cases h : mapGet m k <;> simp [h]

theorem mapGet_mapInsert_self (m : List (Nat × List Packet)) (k : Nat) (v : List Packet) :
    mapGet (mapInsert m k v) k = some v := by
  unfold mapInsert
  by_cases hc : containsKey m k = true
  · rw [if_pos hc]
    rcases containsKey_iff.mp hc with ⟨f, hf⟩
    clear hc
    induction m with
    | nil => cases hf
    | cons kv t ih =>
        rw [List.map_cons]
        by_cases hk : kv.1 = k
        · have he : ((if kv.1 == k then (k, v) else kv) : Nat × List Packet) = (k, v) := by
            simp [hk]
          rw [he, mapGet_cons, if_pos rfl]
        · have he : ((if kv.1 == k then (k, v) else kv) : Nat × List Packet) = kv := by
            simp [hk]
          rw [he, mapGet_cons, if_neg hk]
          rw [mapGet_cons, if_neg hk] at hf
          exact ih hf
  · rw [if_neg hc]
    induction m with
    | nil => simp [mapGet, List.find?]
    | cons kv t ih =>
        rw [List.cons_append, mapGet_cons]
        by_cases hk : kv.1 = k
        · exact absurd (containsKey_iff.mpr ⟨kv.2, by rw [mapGet_cons, if_pos hk]⟩) hc
        · rw [if_neg hk]
          apply ih
          intro hc2
          rcases containsKey_iff.mp hc2 with ⟨f, hf⟩
          exact hc (containsKey_iff.mpr ⟨f, by rw [mapGet_cons, if_neg hk]; exact hf⟩)

theorem mapGet_mapInsert_ne (m : List (Nat × List Packet)) (k k2 : Nat) (v : List Packet)
    (h : k2 ≠ k) : mapGet (mapInsert m k v) k2 = mapGet m k2 := by
  unfold mapInsert
  by_cases hc : containsKey m k = true
  · rw [if_pos hc]
    clear hc
    induction m with
    | nil => rfl
    | cons kv t ih =>
        rw [List.map_cons]
        by_cases hk : kv.1 = k
        · have he : ((if kv.1 == k then (k, v) else kv) : Nat × List Packet) = (k, v) := by
            simp [hk]
          have h1 : ¬ ((k, v) : Nat × List Packet).1 = k2 := by
            simpa using Ne.symm h
          have h2 : ¬ kv.1 = k2 := by rw [hk]; exact Ne.symm h
          rw [he, mapGet_cons, if_neg h1, mapGet_cons, if_neg h2, ih]
        · have he : ((if kv.1 == k then (k, v) else kv) : Nat × List Packet) = kv := by
            simp [hk]
          rw [he, mapGet_cons, mapGet_cons, ih]
  · rw [if_neg hc]
    clear hc
    induction m with
    | nil =>
        have hb : (k == k2) = false := by simpa using Ne.symm h
        simp [mapGet, List.find?, hb]
    | cons kv t ih =>
        rw [List.cons_append, mapGet_cons, mapGet_cons, ih]

theorem mem_mapInsert {kv : Nat × List Packet} {m : List (Nat × List Packet)}
    {k : Nat} {v : List Packet} (h : kv ∈ mapInsert m k v) :
    kv = (k, v) ∨ (kv ∈ m ∧ kv.1 ≠ k) := by
  unfold mapInsert at h
  by_cases hc : containsKey m k = true
  · rw [if_pos hc] at h
    rcases List.mem_map.mp h with ⟨kv0, hkv0, heq⟩
    by_cases hk : kv0.1 = k
    · left
      rw [← heq]
      simp [hk]
    · right
      have he : ((if kv0.1 == k then (k, v) else kv0) : Nat × List Packet) = kv0 := by
        simp [hk]
      rw [he] at heq
      rw [← heq]
      exact ⟨hkv0, hk⟩
  · rw [if_neg hc] at h
    rcases List.mem_append.mp h with h | h
    · right
      refine ⟨h, ?_⟩
      have hnone : mapGet m k = none := by
        cases hg : mapGet m k with
        | none => rfl
        | some f => exact absurd (containsKey_iff.mpr ⟨f, hg⟩) hc
      exact mapGet_eq_none_not_mem hnone kv h
    · left
      simpa using h

theorem keys_mapInsert (m : List (Nat × List Packet)) (k : Nat) (v : List Packet) :
    (mapInsert m k v).map Prod.fst =
      if containsKey m k then m.map Prod.fst else m.map Prod.fst ++ [k] := by
  unfold mapInsert
  by_cases hc : containsKey m k = true
  · rw [if_pos hc, if_pos hc, List.map_map]
    apply List.map_congr_left
    intro kv _
    by_cases hk : kv.1 = k
    · simp [hk]
    · simp [hk]
  · rw [if_neg hc, if_neg hc]
    simp

theorem mem_mapRemove {kv : Nat × List Packet} {m : List (Nat × List Packet)} {k : Nat} :
    kv ∈ mapRemove m k ↔ kv ∈ m ∧ kv.1 ≠ k := by
  unfold mapRemove
  rw [List.mem_filter]
  constructor
  · rintro ⟨h1, h2⟩
    exact ⟨h1, by simpa using h2⟩
  · rintro ⟨h1, h2⟩
    exact ⟨h1, by simpa using h2⟩

theorem keys_mapRemove_sublist (m : List (Nat × List Packet)) (k : Nat) :
    ((mapRemove m k).map Prod.fst).Sublist (m.map Prod.fst) :=
  List.Sublist.map _ (List.filter_sublist m)

theorem mapGet_mapRemove_self (m : List (Nat × List Packet)) (k : Nat) :
    mapGet (mapRemove m k) k = none := by
  unfold mapGet
  have hf : (mapRemove m k).find? (fun kv => kv.1 == k) = none := by
    rw [List.find?_eq_none]
    intro kv hkv
    have := (mem_mapRemove.mp hkv).2
    simpa using this
  rw [hf]
  rfl

theorem mapGet_mapRemove_ne (m : List (Nat × List Packet)) (k k2 : Nat) (h : k2 ≠ k) :
    mapGet (mapRemove m k) k2 = mapGet m k2 := by
  induction m with
  | nil => rfl
  | cons kv t ih =>
      unfold mapRemove at ih ⊢
      rw [List.filter_cons]
      by_cases hkk : kv.1 = k
      · rw [if_neg (by simp [hkk])]
        rw [ih, mapGet_cons, if_neg (by rw [hkk]; exact Ne.symm h)]
      · rw [if_pos (by simpa using hkk)]
        rw [mapGet_cons, mapGet_cons, ih]

theorem length_mapRemove_le (m : List (Nat × List Packet)) (k : Nat) :
    (mapRemove m k).length ≤ m.length :=
  List.Sublist.length_le (List.filter_sublist m)

theorem length_mapRemove_lt {m : List (Nat × List Packet)} {k : Nat}
    (h : containsKey m k = true) : (mapRemove m k).length < m.length := by
  rcases containsKey_iff.mp h with ⟨f, hf⟩
  exact List.length_filter_lt_length_iff_exists.mpr
    ⟨(k, f), mapGet_eq_some_mem hf, by simp⟩

/-- Sorted insertion, the combined effect of `position` + `Vec::insert` in
`add_packet_to_frame`; proved equal to `vecInsert (insertPos f p) p f`. -/
def insertSorted : List Packet → Packet → List Packet
  | [], p => [p]
  | q :: t, p => if p.index < q.index then p :: q :: t else q :: insertSorted t p

theorem vecInsert_insertPos (f : List Packet) (p : Packet) :
    FrameBuffer.vecInsert (FrameBuffer.insertPos f p) p f = insertSorted f p := by
  induction f with
  | nil => rfl
  | cons q t ih =>
      unfold FrameBuffer.insertPos at ih ⊢
      rw [List.findIdx_cons]
      by_cases h : p.index < q.index
      · rw [decide_eq_true h, cond_true]
        simp [FrameBuffer.vecInsert, insertSorted, h]
      · rw [decide_eq_false h, cond_false]
        unfold FrameBuffer.vecInsert
        rw [List.take_succ_cons, List.drop_succ_cons, List.cons_append]
        unfold insertSorted
        rw [if_neg h, ← ih]
        rfl

theorem insertSorted_ne_nil (f : List Packet) (p : Packet) : insertSorted f p ≠ [] := by
  cases f with
  | nil => simp [insertSorted]
  | cons q t =>
      unfold insertSorted
      by_cases h : p.index < q.index <;> simp [h]

theorem mem_insertSorted {x p : Packet} {f : List Packet} :
    x ∈ insertSorted f p ↔ x = p ∨ x ∈ f := by
  induction f with
  | nil => simp [insertSorted]
  | cons q t ih =>
      unfold insertSorted
      by_cases h : p.index < q.index
      · rw [if_pos h]
        exact List.mem_cons
      · rw [if_neg h]
        rw [List.mem_cons, ih, List.mem_cons]
        tauto

theorem pairwise_insertSorted {f : List Packet} {p : Packet}
    (hs : f.Pairwise (fun a b => a.index < b.index))
    (hd : ∀ q ∈ f, q.index ≠ p.index) :
    (insertSorted f p).Pairwise (fun a b => a.index < b.index) := by
  induction f with
  | nil => simp [insertSorted]
  | cons q t ih =>
      rw [List.pairwise_cons] at hs
      obtain ⟨hq, ht⟩ := hs
      unfold insertSorted
      by_cases h : p.index < q.index
      · rw [if_pos h]
        rw [List.pairwise_cons]
        refine ⟨?_, List.pairwise_cons.mpr ⟨hq, ht⟩⟩
        intro x hx
        rcases List.mem_cons.mp hx with rfl | hx
        · exact h
        · exact Nat.lt_trans h (hq x hx)
      · rw [if_neg h]
        rw [List.pairwise_cons]
        constructor
        · intro x hx
          rcases mem_insertSorted.mp hx with rfl | hx
          · have hne := hd q (List.mem_cons_self _ _)
            omega
          · exact hq x hx
        · exact ih ht (fun r hr => hd r (List.mem_cons_of_mem _ hr))

/-- Well-formedness of one frame entry of the cache: the packet list is
nonempty, all packets carry the entry's frame id, and the list is strictly
sorted by `index`. -/
def FrameWF (k : Nat) (f : List Packet) : Prop :=
  f ≠ [] ∧ (∀ p ∈ f, p.frame_id = k) ∧ f.Pairwise (fun a b => a.index < b.index)

/-- The cache invariant maintained by every reachable state: every stored
frame id occurs in `order`, the stored keys are distinct, and every stored
frame is well-formed. -/
def Inv (s : FrameBuffer) : Prop :=
  (∀ kv ∈ s.frames, kv.1 ∈ s.order) ∧
  (s.frames.map Prod.fst).Nodup ∧
  (∀ kv ∈ s.frames, FrameWF kv.1 kv.2)

theorem inv_frames_le_order {s : FrameBuffer} (h : Inv s) :
    s.frames.length ≤ s.order.length := by
  have hsub : (s.frames.map Prod.fst) ⊆ s.order := by
    intro k hk
    rcases List.mem_map.mp hk with ⟨kv, hkv, rfl⟩
    exact h.1 kv hkv
  have := (h.2.1.subperm hsub).length_le
  rw [List.length_map] at this
  exact this

theorem mapGet_of_mem_nodup {m : List (Nat × List Packet)}
    (hnodup : (m.map Prod.fst).Nodup) {kv : Nat × List Packet} (hkv : kv ∈ m) :
    mapGet m kv.1 = some kv.2 := by
  induction m with
  | nil => cases hkv
  | cons kv0 t ih =>
      rw [List.map_cons, List.nodup_cons] at hnodup
      obtain ⟨hnotin, hnd⟩ := hnodup
      rcases List.mem_cons.mp hkv with rfl | hkv
      · rw [mapGet_cons, if_pos rfl]
      · rw [mapGet_cons]
        by_cases hk : kv0.1 = kv.1
        · exact absurd (hk ▸ List.mem_map.mpr ⟨kv, hkv, rfl⟩) hnotin
        · rw [if_neg hk]
          exact ih hnd hkv

/-- Invariant preservation through `add_packet_to_frame`.  The hypotheses on
the target frame are weaker than `FrameWF` (no nonemptiness) because
`create_frame` has just inserted an empty list on the create path. -/
theorem inv_add_packet_to_frame {s s' : FrameBuffer} {p : Packet}
    (hord : ∀ kv ∈ s.frames, kv.1 ∈ s.order)
    (hnodup : (s.frames.map Prod.fst).Nodup)
    (hwf : ∀ kv ∈ s.frames, kv.1 ≠ p.frame_id → FrameWF kv.1 kv.2)
    (hwfT : ∀ f, mapGet s.frames p.frame_id = some f →
      (∀ q ∈ f, q.frame_id = p.frame_id) ∧ f.Pairwise (fun a b => a.index < b.index))
    (hstep : s.add_packet_to_frame p = some s') : Inv s' := by
  unfold FrameBuffer.add_packet_to_frame at hstep
  cases hget : mapGet s.frames p.frame_id with
  | none =>
      simp only [hget] at hstep
      exact Option.noConfusion hstep
  | some f =>
      simp only [hget] at hstep
      obtain ⟨hids, hpw⟩ := hwfT f hget
      by_cases hdup : (f.any fun q => Packet.pktEq q p) = true
      · rw [if_pos hdup] at hstep
        obtain rfl : s = s' := by simpa using hstep
        rcases List.any_eq_true.mp hdup with ⟨q, hq, _⟩
        refine ⟨hord, hnodup, ?_⟩
        intro kv hkv
        by_cases hk : kv.1 = p.frame_id
        · have hv : mapGet s.frames kv.1 = some kv.2 := mapGet_of_mem_nodup hnodup hkv
          rw [hk, hget] at hv
          obtain hv2 : f = kv.2 := by simpa using hv
          rw [hk, ← hv2]
          exact ⟨(fun he => by rw [he] at hq; cases hq), hids, hpw⟩
        · exact hwf kv hkv hk
      · rw [if_neg hdup] at hstep
        rw [vecInsert_insertPos] at hstep
        obtain rfl : { s with
            frames := mapInsert s.frames p.frame_id (insertSorted f p) } = s' := by
          simpa using hstep
        have hmemT : (p.frame_id, f) ∈ s.frames := mapGet_eq_some_mem hget
        have hfalse : (f.any fun q => Packet.pktEq q p) = false := by
          cases hb : f.any fun q => Packet.pktEq q p
          · rfl
          · exact absurd hb hdup
        have hdupf : ∀ q ∈ f, q.index ≠ p.index := by
          intro q hq hqi
          have hnp := List.any_eq_false.mp hfalse q hq
          exact hnp (by simp [Packet.pktEq, hqi, hids q hq])
        have hck : containsKey s.frames p.frame_id = true :=
          containsKey_iff.mpr ⟨f, hget⟩
        refine ⟨?_, ?_, ?_⟩
        · intro kv hkv
          rcases mem_mapInsert hkv with rfl | ⟨hmem, hne⟩
          · exact hord (p.frame_id, f) hmemT
          · exact hord kv hmem
        · show ((mapInsert s.frames p.frame_id (insertSorted f p)).map Prod.fst).Nodup
          rw [keys_mapInsert, if_pos hck]
          exact hnodup
        · intro kv hkv
          rcases mem_mapInsert hkv with rfl | ⟨hmem, hne⟩
          · refine ⟨insertSorted_ne_nil f p, ?_, pairwise_insertSorted hpw hdupf⟩
            intro q hq
            rcases mem_insertSorted.mp hq with rfl | hq
            · rfl
            · exact hids q hq
          · exact hwf kv hmem hne

/-- Properties of the state produced by `create_frame` when called (as
`add_packet` does) with a frame id not in the cache: the old invariant
clauses survive, and the new id maps to the empty frame. -/
theorem create_frame_inv {s fb1 : FrameBuffer} {fid : Nat}
    (hord : ∀ kv ∈ s.frames, kv.1 ∈ s.order)
    (hnodup : (s.frames.map Prod.fst).Nodup)
    (hwf : ∀ kv ∈ s.frames, FrameWF kv.1 kv.2)
    (hc : containsKey s.frames fid = false)
    (hcf : s.create_frame fid = some fb1) :
    (∀ kv ∈ fb1.frames, kv.1 ∈ fb1.order) ∧
    ((fb1.frames.map Prod.fst).Nodup) ∧
    (∀ kv ∈ fb1.frames, kv.1 ≠ fid → FrameWF kv.1 kv.2) ∧
    mapGet fb1.frames fid = some [] := by
  have hget_none : mapGet s.frames fid = none := by
    cases hg : mapGet s.frames fid with
    | none => rfl
    | some f =>
        unfold containsKey at hc
        rw [hg] at hc
        simp at hc
  unfold FrameBuffer.create_frame at hcf
  by_cases hcap : s.frames.length ≥ FrameBuffer.MAX_FRAMES
  · rw [if_pos hcap] at hcf
    cases horder : s.order with
    | nil => rw [horder] at hcf; cases hcf
    | cons oldest rest =>
        rw [horder] at hcf
        have hfb1 : fb1 = ⟨mapInsert (mapRemove s.frames oldest) fid [], rest ++ [fid]⟩ := by
          simpa using hcf.symm
        subst hfb1
        have hrm_none : mapGet (mapRemove s.frames oldest) fid = none := by
          by_cases hfo : fid = oldest
          · rw [hfo]
            exact mapGet_mapRemove_self _ _
          · rw [mapGet_mapRemove_ne _ _ _ hfo]
            exact hget_none
        have hck_rm : containsKey (mapRemove s.frames oldest) fid = false := by
          unfold containsKey
          rw [hrm_none]
          rfl
        refine ⟨?_, ?_, ?_, mapGet_mapInsert_self _ _ _⟩
        · intro kv hkv
          rcases mem_mapInsert hkv with rfl | ⟨hmem, hne⟩
          · exact List.mem_append.mpr (Or.inr (List.mem_singleton.mpr rfl))
          · obtain ⟨hmem2, hno⟩ := mem_mapRemove.mp hmem
            have hmo := hord kv hmem2
            rw [horder] at hmo
            rcases List.mem_cons.mp hmo with heq | hmem3
            · exact absurd heq hno
            · exact List.mem_append.mpr (Or.inl hmem3)
        · show ((mapInsert (mapRemove s.frames oldest) fid []).map Prod.fst).Nodup
          rw [keys_mapInsert, if_neg (by simp [hck_rm])]
          refine List.Nodup.append
            (List.Nodup.sublist (keys_mapRemove_sublist s.frames oldest) hnodup)
            (List.nodup_singleton _) ?_
          rw [List.disjoint_singleton]
          intro hmemk
          rcases List.mem_map.mp hmemk with ⟨kv, hkv, hfst⟩
          exact (mapGet_eq_none_not_mem hrm_none kv hkv) hfst
        · intro kv hkv hne
          rcases mem_mapInsert hkv with rfl | ⟨hmem, _⟩
          · exact absurd rfl hne
          · exact hwf kv (mem_mapRemove.mp hmem).1
  · rw [if_neg hcap] at hcf
    have hfb1 : fb1 = ⟨mapInsert s.frames fid [], s.order ++ [fid]⟩ := by
      simpa using hcf.symm
    subst hfb1
    refine ⟨?_, ?_, ?_, mapGet_mapInsert_self _ _ _⟩
    · intro kv hkv
      rcases mem_mapInsert hkv with rfl | ⟨hmem, hne⟩
      · exact List.mem_append.mpr (Or.inr (List.mem_singleton.mpr rfl))
      · exact List.mem_append.mpr (Or.inl (hord kv hmem))
    · show ((mapInsert s.frames fid []).map Prod.fst).Nodup
      rw [keys_mapInsert, if_neg (by simp [hc])]
      refine List.Nodup.append hnodup (List.nodup_singleton _) ?_
      rw [List.disjoint_singleton]
      intro hmemk
      rcases List.mem_map.mp hmemk with ⟨kv, hkv, hfst⟩
      exact (mapGet_eq_none_not_mem hget_none kv hkv) hfst
    · intro kv hkv hne
      rcases mem_mapInsert hkv with rfl | ⟨hmem, _⟩
      · exact absurd rfl hne
      · exact hwf kv hmem

/-- Invariant preservation through `add_packet`. -/
theorem inv_preserved_add {s s' : FrameBuffer} {p : Packet}
    (h : Inv s) (hstep : s.add_packet p = some s') : Inv s' := by
  obtain ⟨hord, hnodup, hwf⟩ := h
  unfold FrameBuffer.add_packet at hstep
  by_cases hc : containsKey s.frames p.frame_id = true
  · rw [if_pos hc] at hstep
    refine inv_add_packet_to_frame hord hnodup (fun kv hkv _ => hwf kv hkv) ?_ hstep
    intro f hf
    obtain ⟨hne, hids, hpw⟩ := hwf _ (mapGet_eq_some_mem hf)
    exact ⟨hids, hpw⟩
  · rw [if_neg hc] at hstep
    have hc2 : containsKey s.frames p.frame_id = false := by
      cases hb : containsKey s.frames p.frame_id
      · rfl
      · exact absurd hb hc
    cases hcf : s.create_frame p.frame_id with
    | none => rw [hcf] at hstep; cases hstep
    | some fb1 =>
        rw [hcf] at hstep
        obtain ⟨h1, h2, h3, h4⟩ := create_frame_inv hord hnodup hwf hc2 hcf
        refine inv_add_packet_to_frame h1 h2 h3 ?_ hstep
        intro f hf
        rw [h4] at hf
        obtain rfl : f = [] := by simpa using hf.symm
        exact ⟨fun q hq => absurd hq (by simp), List.Pairwise.nil⟩

/-- Invariant preservation through `get_frame`. -/
theorem inv_preserved_get {s s' : FrameBuffer} {r : GetFrameResult}
    (h : Inv s) (hstep : s.get_frame = some (r, s')) : Inv s' := by
  obtain ⟨hord, hnodup, hwf⟩ := h
  unfold FrameBuffer.get_frame at hstep
  by_cases h0 : (s.frames.length == 0) = true
  · rw [if_pos h0] at hstep
    simp only [Option.some.injEq, Prod.mk.injEq] at hstep
    obtain ⟨-, rfl⟩ := hstep
    exact ⟨hord, hnodup, hwf⟩
  · rw [if_neg h0] at hstep
    cases hscan : FrameBuffer.scanFrom s 0 (FrameBuffer.MAX_FRAMES - 1) with
    | panicIndex =>
        simp only [hscan] at hstep
        exact Option.noConfusion hstep
    | panicEmpty =>
        simp only [hscan] at hstep
        exact Option.noConfusion hstep
    | noFrame =>
        simp only [hscan, Option.some.injEq, Prod.mk.injEq] at hstep
        obtain ⟨-, rfl⟩ := hstep
        exact ⟨hord, hnodup, hwf⟩
    | found i =>
        rw [hscan] at hstep
        cases hord2 : s.order.get? i with
        | none =>
            simp only [hord2] at hstep
            exact Option.noConfusion hstep
        | some fid =>
            simp only [hord2] at hstep
            cases hget : mapGet s.frames fid with
            | none =>
                simp only [hget] at hstep
                exact Option.noConfusion hstep
            | some packets =>
                simp only [hget] at hstep
                by_cases hseq : (packets.enum.any fun ip => ip.2.index != ip.1) = true
                · rw [if_pos hseq] at hstep
                  simp only [Option.some.injEq, Prod.mk.injEq] at hstep
                  obtain ⟨-, rfl⟩ := hstep
                  exact ⟨hord, hnodup, hwf⟩
                · rw [if_neg hseq] at hstep
                  simp only [Option.some.injEq, Prod.mk.injEq] at hstep
                  obtain ⟨-, rfl⟩ := hstep
                  refine ⟨?_, ?_, ?_⟩
                  · intro kv hkv
                    exact hord kv (mem_mapRemove.mp hkv).1
                  · exact List.Nodup.sublist (keys_mapRemove_sublist s.frames fid) hnodup
                  · intro kv hkv
                    exact hwf kv (mem_mapRemove.mp hkv).1

/-- Every reachable cache state satisfies the invariant. -/
theorem reachable_inv {s : FrameBuffer} (h : Reachable s) : Inv s := by
  induction h with
  | new =>
      exact ⟨fun kv hkv => absurd hkv (by simp [FrameBuffer.new]),
        by simp [FrameBuffer.new],
        fun kv hkv => absurd hkv (by simp [FrameBuffer.new])⟩
  | add hr hstep ih => exact inv_preserved_add ih hstep
  | get hr hstep ih => exact inv_preserved_get ih hstep

/-- Evaluation of `get_frame` on a cache holding a single one-packet frame
whose payload is shorter than `CHUNK_SIZE` (the threshold the source
actually compares against). -/
theorem getFrame_singleton (fid : Nat) (d : List Byte)
    (hd : d.length < Packet.CHUNK_SIZE) :
    FrameBuffer.get_frame ⟨[(fid, [⟨0, fid, d⟩])], [fid]⟩
      = some (.Ok d, ⟨[], [fid]⟩) := by
  simp [FrameBuffer.get_frame, FrameBuffer.scanFrom, FrameBuffer.MAX_FRAMES,
    mapGet, mapRemove, hd]

/-- A frame passing `get_frame`'s positionwise index check has a `false`
sequentiality-failure test. -/
theorem enumFrom_seq_false (l : List Packet) :
    ∀ n, (∀ j (hj : j < l.length), (l.get ⟨j, hj⟩).index = n + j) →
      ((List.enumFrom n l).any fun ip => ip.2.index != ip.1) = false := by
  induction l with
  | nil => intro n _; rfl
  | cons p t ih =>
      intro n h
      rw [List.enumFrom_cons, List.any_cons]
      rw [Bool.or_eq_false_iff]
      constructor
      · have h0 : p.index = n := by
          have := h 0 (by simp)
          simpa using this
        simp [h0]
      · apply ih (n + 1)
        intro j hj
        have hjj : j + 1 < (p :: t).length := by simpa using Nat.succ_lt_succ hj
        have := h (j + 1) hjj
        rw [List.get_cons_succ] at this
        omega

/-- A frame with one out-of-place index fails `get_frame`'s
sequentiality check. -/
theorem enum_seq_true (l : List Packet) {j : Nat} (hj : j < l.length)
    (hne : (l.get ⟨j, hj⟩).index ≠ j) :
    (l.enum.any fun ip => ip.2.index != ip.1) = true := by
  apply List.any_eq_true.mpr
  refine ⟨(j, l.get ⟨j, hj⟩), ?_, ?_⟩
  · rw [List.mem_iff_get?]
    refine ⟨j, ?_⟩
    rw [List.get?_enum, List.get?_eq_get hj]
    rfl
  · simpa using hne

/-- Length of the byte buffer built by `get_frame`'s concatenation loop. -/
theorem foldl_append_data_length (l : List Packet) :
    ∀ acc : List Byte, (l.foldl (fun b p => b ++ p.data) acc).length
      = acc.length + (l.map (fun p => p.data.length)).sum := by
  induction l with
  | nil => intro acc; simp
  | cons p t ih =>
      intro acc
      rw [List.foldl_cons, ih, List.map_cons, List.sum_cons, List.length_append]
      omega

/-- The scanning loop of `get_frame` never reaches the
`frame.last().unwrap()` panic when every cached frame is nonempty. -/
theorem scan_no_panicEmpty (s : FrameBuffer) (hne : ∀ kv ∈ s.frames, kv.2 ≠ []) :
    ∀ gas i, FrameBuffer.scanFrom s i gas ≠ FrameBuffer.ScanOut.panicEmpty := by
  intro gas
  induction gas with
  | zero =>
      intro i hcontra
      unfold FrameBuffer.scanFrom at hcontra
      by_cases h : i < s.order.length
      · rw [dif_pos h] at hcontra
        cases hget : mapGet s.frames s.order[i] with
        | none => simp [hget] at hcontra
        | some f =>
            simp only [hget] at hcontra
            cases hL : f.getLast? with
            | none =>
                exact hne _ (mapGet_eq_some_mem hget) (List.getLast?_eq_none_iff.mp hL)
            | some p =>
                simp only [hL] at hcontra
                by_cases hlen : p.data.length < Packet.CHUNK_SIZE
                · rw [if_pos hlen] at hcontra
                  cases hcontra
                · rw [if_neg hlen] at hcontra
                  cases hcontra
      · rw [dif_neg h] at hcontra
        cases hcontra
  | succ g ih =>
      intro i hcontra
      unfold FrameBuffer.scanFrom at hcontra
      by_cases h : i < s.order.length
      · rw [dif_pos h] at hcontra
        cases hget : mapGet s.frames s.order[i] with
        | none => simp [hget] at hcontra
        | some f =>
            simp only [hget] at hcontra
            cases hL : f.getLast? with
            | none =>
                exact hne _ (mapGet_eq_some_mem hget) (List.getLast?_eq_none_iff.mp hL)
            | some p =>
                simp only [hL] at hcontra
                by_cases hlen : p.data.length < Packet.CHUNK_SIZE
                · rw [if_pos hlen] at hcontra
                  cases hcontra
                · rw [if_neg hlen] at hcontra
                  exact ih (i + 1) hcontra
      · rw [dif_neg h] at hcontra
        cases hcontra

/-- On an invariant-satisfying state, `add_packet` never panics: the
`get_mut` unwrap always finds its key, and the eviction `order.remove(0)`
always has a nonempty `order`. -/
theorem add_packet_isSome {s : FrameBuffer} (hInv : Inv s) (p : Packet) :
    s.add_packet p ≠ none := by
  obtain ⟨hord, hnodup, hwf⟩ := hInv
  unfold FrameBuffer.add_packet
  by_cases hc : containsKey s.frames p.frame_id = true
  · rw [if_pos hc]
    rcases containsKey_iff.mp hc with ⟨f, hf⟩
    unfold FrameBuffer.add_packet_to_frame
    simp only [hf]
    split <;> simp
  · rw [if_neg hc]
    have hc2 : containsKey s.frames p.frame_id = false := by
      cases hb : containsKey s.frames p.frame_id
      · rfl
      · exact absurd hb hc
    have hcf : ∃ fb1, s.create_frame p.frame_id = some fb1 := by
      unfold FrameBuffer.create_frame
      by_cases hcap : s.frames.length ≥ FrameBuffer.MAX_FRAMES
      · rw [if_pos hcap]
        cases horder : s.order with
        | nil =>
            exfalso
            have hle := inv_frames_le_order ⟨hord, hnodup, hwf⟩
            rw [horder] at hle
            have hM : FrameBuffer.MAX_FRAMES = 3 := rfl
            simp only [List.length_nil] at hle
            omega
        | cons oldest rest => exact ⟨_, rfl⟩
      · rw [if_neg hcap]
        exact ⟨_, rfl⟩
    rcases hcf with ⟨fb1, hcf⟩
    obtain ⟨h1, h2, h3, h4⟩ := create_frame_inv hord hnodup hwf hc2 hcf
    simp only [hcf]
    unfold FrameBuffer.add_packet_to_frame
    simp only [h4]
    split <;> simp

/-- Unfolding `rustChunks` on the empty list. -/
theorem rustChunks_nil (n : Nat) : rustChunks n [] = [] := by
  rw [rustChunks]

/-- Unfolding `rustChunks` for a positive chunk size on a nonempty list. -/
theorem rustChunks_pos (n : Nat) (hn : 0 < n) (l : List Byte) (hl : l ≠ []) :
    rustChunks n l = l.take n :: rustChunks n (l.drop n) := by
  rcases n with _ | n
  · exact absurd hn (by omega)
  · rcases l with _ | ⟨a, t⟩
    · exact absurd rfl hl
    · rw [rustChunks]

/-- Structure of Rust's `chunks`: on a nonempty list it yields nonempty
chunks whose non-final members have length exactly `n`, whose concatenation
is the input, and whose final member has length in `[1, n]` — full-size
exactly when `n` divides the input length (so no empty terminator chunk is
ever produced). -/
theorem rustChunks_spec (n : Nat) (hn : 0 < n) :
    ∀ l : List Byte, l ≠ [] →
      rustChunks n l ≠ [] ∧
      (rustChunks n l).flatten = l ∧
      (∀ c ∈ (rustChunks n l).dropLast, c.length = n) ∧
      (∃ last, (rustChunks n l).getLast? = some last ∧ 0 < last.length ∧
        last.length ≤ n ∧ (last.length < n ↔ ¬ n ∣ l.length)) := by
  suffices H : ∀ N, ∀ l : List Byte, l.length = N → l ≠ [] →
      rustChunks n l ≠ [] ∧
      (rustChunks n l).flatten = l ∧
      (∀ c ∈ (rustChunks n l).dropLast, c.length = n) ∧
      (∃ last, (rustChunks n l).getLast? = some last ∧ 0 < last.length ∧
        last.length ≤ n ∧ (last.length < n ↔ ¬ n ∣ l.length)) by
    intro l hl
    exact H l.length l rfl hl
  intro N
  induction N using Nat.strong_induction_on with
  | _ N ih =>
    intro l hN hl
    have hlpos : 0 < l.length := List.length_pos.mpr hl
    rw [rustChunks_pos n hn l hl]
    by_cases hdrop : l.drop n = []
    · have hle : l.length ≤ n := List.drop_eq_nil_iff.mp hdrop
      have htake : l.take n = l := List.take_of_length_le hle
      rw [hdrop, rustChunks_nil, htake]
      refine ⟨by simp, by simp, by simp, l, by simp, hlpos, hle, ?_⟩
      constructor
      · intro hlt hdvd
        have := Nat.le_of_dvd hlpos hdvd
        omega
      · intro hnd
        by_contra hge
        exact hnd (by
          have : l.length = n := by omega
          rw [this])
    · have hgt : n < l.length := by
        by_contra hge
        exact hdrop (List.drop_eq_nil_of_le (by omega))
      have hlen2 : (l.drop n).length = l.length - n := List.length_drop n l
      have hlt : (l.drop n).length < N := by omega
      obtain ⟨h1, h2, h3, last, hL, hpos, hle, hiff⟩ :=
        ih (l.drop n).length (by omega) (l.drop n) rfl hdrop
      have hdvd2 : n ∣ l.length ↔ n ∣ (l.drop n).length := by
        rw [hlen2]
        constructor
        · intro hd
          exact Nat.dvd_sub' hd (dvd_refl n)
        · intro hd
          have : l.length = (l.length - n) + n := by omega
          rw [this]
          exact Nat.dvd_add hd (dvd_refl n)
      refine ⟨by simp, ?_, ?_, last, ?_, hpos, hle, ?_⟩
      · simp only [List.flatten_cons, h2, List.take_append_drop]
      · rw [List.dropLast_cons_of_ne_nil h1]
        intro c hc
        rcases List.mem_cons.mp hc with hc | hc
        · subst hc
          rw [List.length_take]
          exact min_eq_left (by omega)
        · exact h3 c hc
      · cases hcs : rustChunks n (l.drop n) with
        | nil => exact absurd hcs h1
        | cons c cs =>
            rw [List.getLast?_cons_cons]
            rw [hcs] at hL
            exact hL
      · rw [hiff, hdvd2]

/-- Chunking a constant list of length `m * n + r` (with `0 < r ≤ n`)
yields `m` full chunks followed by one final chunk of length `r`. -/
theorem rustChunks_replicate (n : Nat) (hn : 0 < n) (a : Byte) (r : Nat)
    (hr : 0 < r) (hrn : r ≤ n) :
    ∀ m : Nat, rustChunks n (List.replicate (m * n + r) a)
      = List.replicate m (List.replicate n a) ++ [List.replicate r a] := by
  intro m
  induction m with
  | zero =>
      have hne : List.replicate (0 * n + r) a ≠ [] := by
        rw [← List.length_pos, List.length_replicate]
        omega
      rw [rustChunks_pos n hn _ hne]
      rw [List.take_of_length_le (by rw [List.length_replicate]; omega)]
      rw [List.drop_eq_nil_of_le (by rw [List.length_replicate]; omega)]
      rw [rustChunks_nil]
      simp
  | succ m ih =>
      have hsplit : (m + 1) * n + r = n + (m * n + r) := by ring
      rw [hsplit, List.replicate_add]
      have hne : List.replicate n a ++ List.replicate (m * n + r) a ≠ [] := by
        rw [← List.length_pos, List.length_append, List.length_replicate]
        omega
      rw [rustChunks_pos n hn _ hne]
      have htake : (List.replicate n a ++ List.replicate (m * n + r) a).take n
          = List.replicate n a := by
        rw [List.take_append_eq_append_take, List.length_replicate, Nat.sub_self,
          List.take_zero, List.append_nil, List.take_replicate, min_self]
      have hdrop : (List.replicate n a ++ List.replicate (m * n + r) a).drop n
          = List.replicate (m * n + r) a := by
        rw [List.drop_append_eq_append_drop, List.length_replicate, Nat.sub_self,
          List.drop_zero, List.drop_replicate, Nat.sub_self, List.replicate_zero,
          List.nil_append]
      rw [htake, hdrop, ih, List.replicate_succ]
      simp

/-! ### Claim theorems -/

/-- C1 (code bug): the claim says a cache whose only frame consists of a
single fragment of exactly `CHUNK_SIZE - META_SIZE` bytes (the full-size
fragment the sender emits for a not-yet-finished frame, no short terminator)
must yield `NoFrame`.  The code instead extracts the frame as `Ok`, because
`get_frame` compares the trailing payload against `CHUNK_SIZE` instead of
`CHUNK_SIZE - META_SIZE`, a bound every fragment on the wire satisfies. -/
theorem get_frame_extracts_full_size_fragment :
    FrameBuffer.get_frame
        ⟨[(7, [⟨0, 7, List.replicate (Packet.CHUNK_SIZE - Packet.META_SIZE) 0⟩])], [7]⟩
      = some (.Ok (List.replicate (Packet.CHUNK_SIZE - Packet.META_SIZE) 0), ⟨[], [7]⟩) ∧
    (List.replicate (Packet.CHUNK_SIZE - Packet.META_SIZE) (0 : Byte)).length
      = Packet.CHUNK_SIZE - Packet.META_SIZE := by
  refine ⟨getFrame_singleton 7 _ ?_, List.length_replicate _ _⟩
  rw [List.length_replicate]
  decide

/-- C2 (code bug): the claim (and the `FrameBuffer` doc comment "Ensures that
only 3 frames are stored at a time") says the cache never exceeds
`MAX_FRAMES = 3` frames.  After extracting a frame (which removes it from
`frames` but leaves its id in `order`) and then inserting packets for four
fresh frame ids, the eviction in `create_frame` removes the stale head of
`order` instead of a live frame, and the cache grows to 4 frames. -/
theorem cache_exceeds_max_frames :
    (runOps FrameBuffer.new
        [.add ⟨0, 1, []⟩, .get, .add ⟨0, 2, []⟩, .add ⟨0, 3, []⟩,
         .add ⟨0, 4, []⟩, .add ⟨0, 5, []⟩]).map (fun s => s.frames.length)
      = some 4 ∧ FrameBuffer.MAX_FRAMES = 3 := by
  exact ⟨by decide, rfl⟩

/-- C5 counterexample: for a compressed buffer of length exactly
`CHUNK_SIZE - META_SIZE` the sender's chunking produces a single full-size
chunk and no empty terminator, so the frame's last fragment does **not**
have payload length strictly below `CHUNK_SIZE - META_SIZE` as the claim
states. -/
theorem sender_no_empty_terminator :
    (rustChunks (Packet.CHUNK_SIZE - Packet.META_SIZE)
        (List.replicate (Packet.CHUNK_SIZE - Packet.META_SIZE) 0)).getLast?
      = some (List.replicate (Packet.CHUNK_SIZE - Packet.META_SIZE) 0) ∧
    ¬ (List.replicate (Packet.CHUNK_SIZE - Packet.META_SIZE) (0 : Byte)).length
        < Packet.CHUNK_SIZE - Packet.META_SIZE := by
  constructor
  · have hne : List.replicate (Packet.CHUNK_SIZE - Packet.META_SIZE) (0 : Byte) ≠ [] := by
      rw [← List.length_pos, List.length_replicate]
      decide
    rw [rustChunks_pos _ (by decide) _ hne,
      List.take_of_length_le (le_of_eq (List.length_replicate _ _)),
      List.drop_eq_nil_of_le (le_of_eq (List.length_replicate _ _)), rustChunks_nil]
    rfl
  · rw [List.length_replicate]
    omega

/-- C5 (amended): the sender splits the buffer into consecutive chunks of
exactly `CHUNK_SIZE - META_SIZE` bytes followed by a final chunk of length
between 1 and `CHUNK_SIZE - META_SIZE`; the final chunk is strictly shorter
exactly when the buffer size is not a multiple of `CHUNK_SIZE - META_SIZE`
(no length-0 terminator is ever emitted, and an exact multiple ends in a
full-size fragment). -/
theorem sender_chunking_spec (l : List Byte) (hl : l ≠ []) :
    rustChunks (Packet.CHUNK_SIZE - Packet.META_SIZE) l ≠ [] ∧
    (rustChunks (Packet.CHUNK_SIZE - Packet.META_SIZE) l).flatten = l ∧
    (∀ c ∈ (rustChunks (Packet.CHUNK_SIZE - Packet.META_SIZE) l).dropLast,
      c.length = Packet.CHUNK_SIZE - Packet.META_SIZE) ∧
    (∃ last, (rustChunks (Packet.CHUNK_SIZE - Packet.META_SIZE) l).getLast? = some last ∧
      0 < last.length ∧ last.length ≤ Packet.CHUNK_SIZE - Packet.META_SIZE ∧
      (last.length < Packet.CHUNK_SIZE - Packet.META_SIZE ↔
        ¬ (Packet.CHUNK_SIZE - Packet.META_SIZE) ∣ l.length)) :=
  rustChunks_spec _ (by decide) l hl

/-- Witness for `sender_chunking_spec` at the one-byte buffer `[0]`. -/
theorem sender_chunking_spec_witness :
    rustChunks (Packet.CHUNK_SIZE - Packet.META_SIZE) [0] ≠ [] ∧
    (rustChunks (Packet.CHUNK_SIZE - Packet.META_SIZE) [0]).flatten = [0] ∧
    (∀ c ∈ (rustChunks (Packet.CHUNK_SIZE - Packet.META_SIZE) [0]).dropLast,
      c.length = Packet.CHUNK_SIZE - Packet.META_SIZE) ∧
    (∃ last, (rustChunks (Packet.CHUNK_SIZE - Packet.META_SIZE) [0]).getLast? = some last ∧
      0 < last.length ∧ last.length ≤ Packet.CHUNK_SIZE - Packet.META_SIZE ∧
      (last.length < Packet.CHUNK_SIZE - Packet.META_SIZE ↔
        ¬ (Packet.CHUNK_SIZE - Packet.META_SIZE) ∣ ([0] : List Byte).length)) :=
  sender_chunking_spec [0] (by simp)

/-- C7 counterexample: for a compressed buffer needing 257 fragments, the
fragment at position 256 is transmitted with wire index `256 % 256 = 0`:
the index is silently truncated, no error is surfaced. -/
theorem sender_index_truncated :
    ((sender_packets 0 (List.replicate
        (256 * (Packet.CHUNK_SIZE - Packet.META_SIZE) + 1) 0)).get? 256).map Packet.index
      = some 0 ∧ (0 : Nat) ≠ 256 := by
  refine ⟨?_, by decide⟩
  unfold sender_packets
  rw [rustChunks_replicate (Packet.CHUNK_SIZE - Packet.META_SIZE) (by decide) 0 1
    (by decide) (by decide) 256]
  rw [List.get?_map, List.get?_enum]
  rw [List.get?_append_right (le_of_eq (List.length_replicate _ _))]
  rw [List.length_replicate]
  rfl

/-- C7 (amended): the sender does not surface an error for frames needing
more than 256 fragments; every transmitted packet's wire index is its
fragment position reduced modulo 256, which equals the true position only
when that position is below 256. -/
theorem sender_packets_index (fid : Nat) (bytes : List Byte) (i : Nat) (p : Packet)
    (h : (sender_packets fid bytes).get? i = some p) :
    p.index = i % 256 ∧ (i < 256 → p.index = i) := by
  unfold sender_packets at h
  rw [List.get?_map, List.get?_enum] at h
  cases hc : (rustChunks (Packet.CHUNK_SIZE - Packet.META_SIZE) bytes).get? i with
  | none => rw [hc] at h; simp at h
  | some c =>
      rw [hc] at h
      have hp : Packet.mk (i % 256) fid c = p := by simpa using h
      rw [← hp]
      exact ⟨rfl, fun h2 => Nat.mod_eq_of_lt h2⟩

/-- Witness for `sender_packets_index` at the one-chunk buffer `[1]`. -/
theorem sender_packets_index_witness :
    (Packet.mk 0 0 [1]).index = 0 % 256 ∧ (0 < 256 → (Packet.mk 0 0 [1]).index = 0) :=
  sender_packets_index 0 [1] 0 ⟨0, 0, [1]⟩ (by
    have h1 : rustChunks (Packet.CHUNK_SIZE - Packet.META_SIZE) [1] = [[1]] := by
      rw [rustChunks_pos _ (by decide) _ (by simp),
        List.take_of_length_le (by decide), List.drop_eq_nil_of_le (by decide),
        rustChunks_nil]
    unfold sender_packets
    rw [h1]
    rfl)

/-- C6 counterexample: with registry `[5]` and sender address `5`, a control
byte of `2` (which the claim says adds the sender) empties the registry, a
byte of `3` (which the claim says removes the sender) leaves it untouched,
and a byte of `1` (which the claim says has no registry effect) adds the
sender. -/
theorem serverControl_counterexample :
    ¬ (5 ∈ serverControl [5] 2 5) ∧ (5 ∈ serverControl [5] 3 5) ∧
      serverControl [] 1 5 = [5] := by decide

/-- C6 (amended): the server adds the sender's address exactly on control
byte `1`, removes it exactly on control byte `2`, and leaves the registry
unchanged on byte `0` and on every byte `≥ 3` (the unused `comm.rs`
`Actions` mapping, which places `NewConnection` at 2 and `Disconnection`
at 3, is not what `server.rs` implements). -/
theorem serverControl_spec (clients : List Nat) (b : Byte) (a : Nat) :
    serverControl clients b a =
      if b = 1 then clients ++ [a]
      else if b = 2 then clients.filter (fun x => x != a)
      else clients := by
  rcases b with _ | _ | _ | n <;> simp [serverControl]

/-- C3: whenever `get_frame`'s scan selects a (complete, per the code's
threshold) frame whose packet indices are positionwise `0, 1, …, n-1`, it
returns `Ok` with the concatenation of the payloads in index order, the
buffer length is the sum of the payload lengths, and the frame is removed
from the `frames` map (the id stays in `order`, which the source never
cleans). -/
theorem get_frame_ready (s : FrameBuffer) (i fid : Nat) (f : List Packet)
    (hscan : FrameBuffer.scanFrom s 0 (FrameBuffer.MAX_FRAMES - 1)
      = FrameBuffer.ScanOut.found i)
    (hord : s.order.get? i = some fid)
    (hget : mapGet s.frames fid = some f)
    (hseq : ∀ j (hj : j < f.length), (f.get ⟨j, hj⟩).index = j) :
    s.get_frame = some (GetFrameResult.Ok (f.foldl (fun b p => b ++ p.data) []),
        { s with frames := mapRemove s.frames fid }) ∧
    (f.foldl (fun b p => b ++ p.data) []).length = (f.map (fun p => p.data.length)).sum ∧
    mapGet (mapRemove s.frames fid) fid = none := by
  have hne : s.frames ≠ [] := by
    intro hnil
    rw [hnil] at hget
    cases hget
  have h0 : (s.frames.length == 0) = false := by
    have hpos := List.length_pos.mpr hne
    cases hb : s.frames.length == 0
    · rfl
    · have := eq_of_beq hb
      omega
  have hseqb : (f.enum.any fun ip => ip.2.index != ip.1) = false := by
    apply enumFrom_seq_false f 0
    intro j hj
    rw [Nat.zero_add]
    exact hseq j hj
  refine ⟨?_, ?_, mapGet_mapRemove_self _ _⟩
  · unfold FrameBuffer.get_frame
    rw [if_neg (by simp [h0])]
    simp only [hscan, hord, hget]
    rw [if_neg (by simp [hseqb])]
  · simpa using foldl_append_data_length f []

/-- Witness for `get_frame_ready`: frame 7 with packets of indices 0 and 1
and payloads `[1, 2]` and `[3]` yields the buffer `[1, 2, 3]`. -/
theorem get_frame_ready_witness :
    FrameBuffer.get_frame ⟨[(7, [⟨0, 7, [1, 2]⟩, ⟨1, 7, [3]⟩])], [7]⟩
      = some (GetFrameResult.Ok
            (([⟨0, 7, [1, 2]⟩, ⟨1, 7, [3]⟩] : List Packet).foldl
              (fun b p => b ++ p.data) []),
          ⟨mapRemove [(7, [⟨0, 7, [1, 2]⟩, ⟨1, 7, [3]⟩])] 7, [7]⟩) ∧
    (([⟨0, 7, [1, 2]⟩, ⟨1, 7, [3]⟩] : List Packet).foldl
        (fun b p => b ++ p.data) []).length
      = (([⟨0, 7, [1, 2]⟩, ⟨1, 7, [3]⟩] : List Packet).map
          (fun p => p.data.length)).sum ∧
    mapGet (mapRemove [(7, [⟨0, 7, [1, 2]⟩, ⟨1, 7, [3]⟩])] 7) 7 = none :=
  get_frame_ready ⟨[(7, [⟨0, 7, [1, 2]⟩, ⟨1, 7, [3]⟩])], [7]⟩ 0 7
    [⟨0, 7, [1, 2]⟩, ⟨1, 7, [3]⟩] (by decide) (by decide) (by decide) (by decide)

/-- C4: whenever `get_frame`'s scan selects a frame whose indices do not
form the contiguous run `0, 1, …` (some position `j` holds an index `≠ j`),
it returns `NonSequential` carrying exactly that frame's packet list, and
the state is returned unchanged. -/
theorem get_frame_nonsequential (s : FrameBuffer) (i fid j : Nat) (f : List Packet)
    (hscan : FrameBuffer.scanFrom s 0 (FrameBuffer.MAX_FRAMES - 1)
      = FrameBuffer.ScanOut.found i)
    (hord : s.order.get? i = some fid)
    (hget : mapGet s.frames fid = some f)
    (hj : j < f.length)
    (hne : (f.get ⟨j, hj⟩).index ≠ j) :
    s.get_frame = some (GetFrameResult.NonSequential f, s) := by
  have hnenil : s.frames ≠ [] := by
    intro hnil
    rw [hnil] at hget
    cases hget
  have h0 : (s.frames.length == 0) = false := by
    have hpos := List.length_pos.mpr hnenil
    cases hb : s.frames.length == 0
    · rfl
    · have := eq_of_beq hb
      omega
  have hseqb := enum_seq_true f hj hne
  unfold FrameBuffer.get_frame
  rw [if_neg (by simp [h0])]
  simp only [hscan, hord, hget]
  rw [if_pos hseqb]

/-- Witness for `get_frame_nonsequential`: frame 9 holds indices 0 and 2
(index 1 missing, position 1 holds index 2). -/
theorem get_frame_nonsequential_witness :
    FrameBuffer.get_frame ⟨[(9, [⟨0, 9, [1]⟩, ⟨2, 9, [2]⟩])], [9]⟩
      = some (GetFrameResult.NonSequential [⟨0, 9, [1]⟩, ⟨2, 9, [2]⟩],
          ⟨[(9, [⟨0, 9, [1]⟩, ⟨2, 9, [2]⟩])], [9]⟩) :=
  get_frame_nonsequential ⟨[(9, [⟨0, 9, [1]⟩, ⟨2, 9, [2]⟩])], [9]⟩ 0 9 1
    [⟨0, 9, [1]⟩, ⟨2, 9, [2]⟩] (by decide) (by decide) (by decide)
    (by decide) (by decide)

/-- C9: in every reachable cache state, every stored frame's packet list is
strictly sorted ascending by `index`, and `add_packet` with a packet equal
(same `index` and `frame_id`, per `Packet`'s `PartialEq`) to one already
stored is a no-op: it returns the state unchanged. -/
theorem cache_sorted_dup_noop (s : FrameBuffer) (p : Packet) (f : List Packet)
    (hs : Reachable s) (hf : mapGet s.frames p.frame_id = some f) :
    f.Pairwise (fun a b => a.index < b.index) ∧
    ((∃ q ∈ f, q.index = p.index ∧ q.frame_id = p.frame_id) →
      s.add_packet p = some s) := by
  have hInv := reachable_inv hs
  obtain ⟨hnn, hids, hpw⟩ := hInv.2.2 _ (mapGet_eq_some_mem hf)
  refine ⟨hpw, ?_⟩
  rintro ⟨q, hq, hqi, hqf⟩
  have hany : (f.any fun q2 => Packet.pktEq q2 p) = true :=
    List.any_eq_true.mpr ⟨q, hq, by simp [Packet.pktEq, hqi, hqf]⟩
  unfold FrameBuffer.add_packet
  rw [if_pos (containsKey_iff.mpr ⟨f, hf⟩)]
  unfold FrameBuffer.add_packet_to_frame
  simp only [hf]
  rw [if_pos hany]

/-- Witness for `cache_sorted_dup_noop` on the reachable one-frame state
obtained by a single `add_packet`, re-adding the same packet. -/
theorem cache_sorted_dup_noop_witness :
    ([⟨0, 7, ([] : List Byte)⟩] : List Packet).Pairwise
      (fun a b => a.index < b.index) ∧
    ((∃ q ∈ ([⟨0, 7, ([] : List Byte)⟩] : List Packet),
        q.index = (⟨0, 7, ([] : List Byte)⟩ : Packet).index ∧
        q.frame_id = (⟨0, 7, ([] : List Byte)⟩ : Packet).frame_id) →
      FrameBuffer.add_packet ⟨[(7, [⟨0, 7, []⟩])], [7]⟩ ⟨0, 7, []⟩
        = some ⟨[(7, [⟨0, 7, []⟩])], [7]⟩) :=
  cache_sorted_dup_noop ⟨[(7, [⟨0, 7, []⟩])], [7]⟩ ⟨0, 7, []⟩ [⟨0, 7, []⟩]
    (@Reachable.add FrameBuffer.new ⟨[(7, [⟨0, 7, []⟩])], [7]⟩ ⟨0, 7, []⟩
      Reachable.new (by decide)) (by decide)

/-- C10: in every reachable state, every cached frame holds at least one
packet, `add_packet` never hits a panic (`none`) — in particular the
`frames.get_mut(..).unwrap()` inside `add_packet_to_frame` always finds its
key — and `get_frame`'s scanning loop never reaches the
`frame.last().unwrap()` panic (`ScanOut.panicEmpty`), from any start
position and gas. -/
theorem frames_nonempty_no_unwrap_panic (s : FrameBuffer) (hs : Reachable s) :
    (∀ kv ∈ s.frames, kv.2 ≠ []) ∧
    (∀ p : Packet, s.add_packet p ≠ none) ∧
    (∀ gas i, FrameBuffer.scanFrom s i gas ≠ FrameBuffer.ScanOut.panicEmpty) := by
  have hInv := reachable_inv hs
  have hne : ∀ kv ∈ s.frames, kv.2 ≠ [] := fun kv hkv => (hInv.2.2 kv hkv).1
  exact ⟨hne, fun p => add_packet_isSome hInv p, scan_no_panicEmpty s hne⟩

/-- Witness for `frames_nonempty_no_unwrap_panic` at the initial state. -/
theorem frames_nonempty_no_unwrap_panic_witness :
    (∀ kv ∈ FrameBuffer.new.frames, kv.2 ≠ []) ∧
    (∀ p : Packet, FrameBuffer.new.add_packet p ≠ none) ∧
    (∀ gas i, FrameBuffer.scanFrom FrameBuffer.new i gas
      ≠ FrameBuffer.ScanOut.panicEmpty) :=
  frames_nonempty_no_unwrap_panic FrameBuffer.new Reachable.new

end ScreenStream
